import Mathlib

/-!
Verification of the LSB watermark codec and ownership workflow of the
invisible-watermark repository.

Python strings are modeled as lists of Unicode code points (`List Nat`);
pixel buffers (flattened numpy arrays of uint8 samples) are modeled as
`List Nat`; the binary strings of `'0'`/`'1'` characters that the codec
builds are modeled as `List Bool`.  Fallible operations (Python
exceptions) return `Option`.  The external primitives `hashlib.sha256`
is kept as an explicit function parameter `sha` wherever the source
calls it; `json.dumps` on the fixed four-key record dictionary is
modeled concretely below.
-/

namespace Watermark

/-- Code points of a Lean string literal, used to transcribe the Python
string constants of the source. -/
def strCodes (s : String) : List Nat :=
  s.data.map Char.toNat

/-- Structural helper for `natBits`: the fuel bounds the recursion depth
and is irrelevant once large enough (`natBitsFuel_congr`). -/
def natBitsFuel : Nat → Nat → List Bool
  | 0, _ => []
  | fuel + 1, n => if n < 2 then [n == 1] else natBitsFuel fuel (n / 2) ++ [n % 2 == 1]

/-- MSB-first binary digits of `n` with no leading zeros, as produced by
Python `bin(n)` (where `bin(0)` is `"0"`). -/
def natBits (n : Nat) : List Bool :=
  natBitsFuel (n + 1) n

/-- Python `format(n, '08b')`: the binary digits of `n`, zero-padded on
the left to a width of at least 8. -/
def format08b (n : Nat) : List Bool :=
  List.replicate (8 - (natBits n).length) false ++ natBits n

/-- Model of `WatermarkProcessor.str_to_bin` (backend.py:21-24), identical to
`str_to_bin` of watermark_gui.py: each character contributes
`format(ord(c), '08b')`, concatenated in order. -/
def str_to_bin (s : List Nat) : List Bool :=
  (s.map format08b).flatten

/-- Python `int(c, 2)` on a chunk of binary digit characters: the value
of an MSB-first bit list. -/
def binVal (b : List Bool) : Nat :=
  b.foldl (fun a bit => 2 * a + bit.toNat) 0

/-- Structural helper for `bin_to_str`: the fuel bounds the recursion
depth and is irrelevant once it reaches the list length
(`binToStrFuel_congr`). -/
def binToStrFuel : Nat → List Bool → List Nat
  | 0, _ => []
  | fuel + 1, b =>
    if b.length < 8 then [] else binVal (b.take 8) :: binToStrFuel fuel (b.drop 8)

/-- Model of `WatermarkProcessor.bin_to_str` (backend.py:26-32), identical to
`bin_to_str` of watermark_gui.py: split into 8-bit chunks left to right,
turn each full chunk into the character with that ordinal, and ignore a
trailing chunk shorter than 8 bits. -/
def bin_to_str (b : List Bool) : List Nat :=
  binToStrFuel b.length b

/-- The EOF marker `'1111111111111110'` appended after the payload bits
(backend.py:38, watermark_gui.py:20). -/
def eofMarker : List Bool :=
  List.replicate 15 true ++ [false]

/-- The least significant bit `flat[i] & 1` of a sample, as the boolean
standing for the digit character `str(flat[i] & 1)`. -/
def lsb (x : Nat) : Bool :=
  x &&& 1 == 1

/-- Python `bits_str.find('1111111111111110')` (backend.py:71,
watermark_gui.py:37): the index of the first occurrence of the EOF
marker, `none` when there is no occurrence. -/
def findSub : List Bool → Option Nat
  | [] => none
  | x :: t => if eofMarker.isPrefixOf (x :: t) then some 0 else (findSub t).map (· + 1)

/-- The embedding loop `flat[i] = (flat[i] & 0xFE) | int(data[i])`
(backend.py:46-48, watermark_gui.py:25-26) applied to the samples of the
buffer that carry a data bit; the remaining samples are returned
unchanged. -/
def writeBits : List Nat → List Bool → List Nat
  | buf, [] => buf
  | [], _ :: _ => []
  | x :: buf, b :: bits => ((x &&& 0xFE) ||| b.toNat) :: writeBits buf bits

/-- Model of `WatermarkProcessor.embed_watermark` (backend.py:34-51), identical in
its buffer-level behavior to `embed_watermark` of watermark_gui.py:18-28:
append the EOF marker to the payload bits, fail (`ValueError`, modeled as
`none`) when the data is longer than the flattened buffer, otherwise
substitute the data into the least significant bits of the leading
samples.  The source operates on a fresh `np.array(img)` copy and returns
a new image, so the caller's buffer is never mutated; the model is a pure
function returning the new buffer. -/
def embed_watermark (buf : List Nat) (watermark_json : List Nat) : Option (List Nat) :=
  let data := str_to_bin watermark_json ++ eofMarker
  if data.length > buf.length then none
  else some (writeBits buf data)

/-- The scan bound `pixel_check_limit = min(len(flat), 4096 * 8 * 3)` (backend.py:65). -/
def pixel_check_limit (buf : List Nat) : Nat :=
  min buf.length (4096 * 8 * 3)

/-- The bit string scanned by `WatermarkProcessor.extract_watermark`
(backend.py:67-70): least significant bits of the first
`pixel_check_limit` samples. -/
def extractBits (buf : List Nat) : List Bool :=
  (buf.take (pixel_check_limit buf)).map lsb

/-- Model of `WatermarkProcessor.extract_watermark` (backend.py:53-78): scan the
LSBs of a bounded prefix of the buffer, look for the first EOF marker,
and decode the bits before it; `none` when no marker is found. -/
def extract_watermark (buf : List Nat) : Option (List Nat) :=
  match findSub (extractBits buf) with
  | none => none
  | some eof => some (bin_to_str ((extractBits buf).take eof))

/-- Model of `extract_watermark` of watermark_gui.py:30-41: the same extraction
except that the LSBs of the whole buffer are scanned, with no prefix
cap. -/
def gui_extract_watermark (buf : List Nat) : Option (List Nat) :=
  match findSub (buf.map lsb) with
  | none => none
  | some eof => some (bin_to_str ((buf.map lsb).take eof))

/-! ### Records, validators and the service layer -/

/-- An ownership record dictionary with the four keys produced by
`WatermarkDataManager.create_watermark_data` / `create_resell_data`;
`passkey_hash := none` models a dictionary without that key. -/
structure WatermarkRecord where
  owner : List Nat
  buyer : List Nat
  datetime : List Nat
  passkey_hash : Option (List Nat)
deriving DecidableEq

/-- Python truthiness of `d.get('passkey_hash')`: `None` (missing key)
and the empty string are falsy. -/
def truthyStr : Option (List Nat) → Bool
  | none => false
  | some s => !s.isEmpty

/-- Error message constants of the source. -/
def msgUpload : List Nat := strCodes "Please upload an image first."

/-- Message "Owner field is required." (backend.py:102). -/
def msgOwner : List Nat := strCodes "Owner field is required."

/-- Message "Passkey is required for security." (backend.py:105). -/
def msgPasskeyRequired : List Nat := strCodes "Passkey is required for security."

/-- Message "Passkeys do not match." (backend.py:108). -/
def msgPasskeyMatch : List Nat := strCodes "Passkeys do not match."

/-- Message "Please enter a passkey." (backend.py:132). -/
def msgEnterPasskey : List Nat := strCodes "Please enter a passkey."

/-- Message "Invalid passkey. Cannot resell this image." (backend.py:358). -/
def msgInvalidPasskey : List Nat := strCodes "Invalid passkey. Cannot resell this image."

/-- Message "Failed to embed watermark: ..." (backend.py:296); the interpolated
exception text is elided. -/
def msgEmbedFailed : List Nat := strCodes "Failed to embed watermark: "

/-- Model of `WatermarkValidator.validate_embed_inputs` (backend.py:93-110):
collect all input errors, in source order, without short-circuiting. -/
def validate_embed_inputs (owner passkey confirm_passkey : List Nat)
    (uploaded_file : Bool) : List (List Nat) :=
  (if !uploaded_file then [msgUpload] else []) ++
  (if owner.isEmpty then [msgOwner] else []) ++
  (if passkey.isEmpty then [msgPasskeyRequired] else []) ++
  (if passkey ≠ confirm_passkey then [msgPasskeyMatch] else [])

/-- Model of `WatermarkValidator.validate_passkey_verification` (backend.py:128-133):
an empty passkey is rejected before any hash comparison. -/
def validate_passkey_verification (passkey : List Nat) : Option (List Nat) :=
  if passkey.isEmpty then some msgEnterPasskey else none

/-- Model of `WatermarkDataManager.verify_passkey` (backend.py:163-167),
parameterized by the SHA-256 hex-digest function `sha`, an external
primitive of `hashlib`. -/
def verify_passkey (sha : List Nat → List Nat) (passkey stored_hash : List Nat) : Bool :=
  sha passkey == stored_hash

/-- Model of `WatermarkDataManager.create_watermark_data` (backend.py:139-149). -/
def create_watermark_data (sha : List Nat → List Nat)
    (owner buyer datetime_str passkey : List Nat) : WatermarkRecord :=
  { owner := owner, buyer := buyer, datetime := datetime_str,
    passkey_hash := some (sha passkey) }

/-- Model of `WatermarkService.verify_resell_passkey` (backend.py:345-358): reject
an empty passkey, auto-authorize when the record's `passkey_hash` is
falsy, otherwise compare digests. -/
def verify_resell_passkey (sha : List Nat → List Nat) (passkey : List Nat)
    (existing_watermark : WatermarkRecord) : Bool × Option (List Nat) :=
  match validate_passkey_verification passkey with
  | some error => (false, some error)
  | none =>
    if !truthyStr existing_watermark.passkey_hash then (true, none)
    else if verify_passkey sha passkey (existing_watermark.passkey_hash.getD [])
      then (true, none)
      else (false, some msgInvalidPasskey)

/-! JSON serialization of the record dictionary, modeling Python
`json.dumps` with its default separators and `ensure_ascii=True` on a
four-key dictionary of string values. -/

/-- Lowercase hexadecimal digit, as a code point. -/
def hexDigit (n : Nat) : Nat :=
  if n < 10 then 48 + n else 87 + n

/-- A JSON `\uXXXX` escape for a code unit below 0x10000. -/
def uEscape (c : Nat) : List Nat :=
  [92, 117, hexDigit (c / 4096 % 16), hexDigit (c / 256 % 16),
   hexDigit (c / 16 % 16), hexDigit (c % 16)]

/-- The `json.dumps` escaping of one character with `ensure_ascii=True`:
quote and backslash are escaped, printable ASCII passes through, control
characters use the short escapes where they exist, and everything else
becomes `\uXXXX` (a surrogate pair above 0xFFFF). -/
def jsonEscapeChar (c : Nat) : List Nat :=
  if c = 34 then [92, 34]
  else if c = 92 then [92, 92]
  else if c = 8 then [92, 98]
  else if c = 9 then [92, 116]
  else if c = 10 then [92, 110]
  else if c = 12 then [92, 102]
  else if c = 13 then [92, 114]
  else if 32 ≤ c ∧ c ≤ 126 then [c]
  else if c < 65536 then uEscape c
  else uEscape (55296 + (c - 65536) / 1024) ++ uEscape (56320 + (c - 65536) % 1024)

/-- A JSON string literal: quoted, escaped character by character. -/
def jsonStr (s : List Nat) : List Nat :=
  [34] ++ (s.map jsonEscapeChar).flatten ++ [34]

/-- A JSON string value or `null` for a missing one. -/
def jsonOptStr : Option (List Nat) → List Nat
  | none => strCodes "null"
  | some s => jsonStr s

/-- Model of `json.dumps(data)` (backend.py:257) on the dictionary built by
`create_watermark_data`, with the default separators `', '` and `': '`
and insertion-ordered keys. -/
def jsonDumpsRecord (r : WatermarkRecord) : List Nat :=
  strCodes "\x7b" ++
  jsonStr (strCodes "owner") ++ strCodes ": " ++ jsonStr r.owner ++ strCodes ", " ++
  jsonStr (strCodes "buyer") ++ strCodes ": " ++ jsonStr r.buyer ++ strCodes ", " ++
  jsonStr (strCodes "datetime") ++ strCodes ": " ++ jsonStr r.datetime ++ strCodes ", " ++
  jsonStr (strCodes "passkey_hash") ++ strCodes ": " ++ jsonOptStr r.passkey_hash ++
  strCodes "\x7d"

/-- Model of `WatermarkService.embed_watermark` (backend.py:242-296): validate the
inputs, and on success build the record and embed its JSON serialization.
`uploaded_file` carries the decoded pixel buffer when a file is present.
The source performs no check for an existing watermark in the buffer.
A `ValueError` from the capacity check is caught and surfaced as the
"Failed to embed watermark" error.  The non-fatal blockchain minting that
follows a successful embed is external and not modeled; on success the
returned error list is empty. -/
def service_embed_watermark (sha : List Nat → List Nat)
    (uploaded_file : Option (List Nat))
    (owner buyer passkey confirm_passkey datetime_str : List Nat) :
    Option (List Nat) × List (List Nat) :=
  let errors := validate_embed_inputs owner passkey confirm_passkey uploaded_file.isSome
  if !errors.isEmpty then (none, errors)
  else
    let data := create_watermark_data sha owner buyer datetime_str passkey
    match embed_watermark (uploaded_file.getD []) (jsonDumpsRecord data) with
    | none => (none, [msgEmbedFailed])
    | some watermarked => (some watermarked, [])

/-- The guard of `EmbedWatermarkPage._handle_embed_button`
(frontend.py:276-280): the embed button is offered unless session state
holds a truthy `existing_watermark` whose resale has not been verified. -/
def show_embed_button (existing_watermark : Option WatermarkRecord)
    (resell_verified : Bool) : Bool :=
  match existing_watermark with
  | some _ => resell_verified
  | none => true

/-! ### Facts about the bit codec -/

theorem natBitsFuel_congr (f1 : Nat) :
    ∀ f2 n, n < 2 ^ f1 → n < 2 ^ f2 → 1 ≤ f1 → 1 ≤ f2 →
      natBitsFuel f1 n = natBitsFuel f2 n := by
  induction f1 with
  | zero => omega
  | succ f1 ih =>
    intro f2 n h1 h2 _ hf2
    match f2 with
    | f2 + 1 =>
      by_cases hn : n < 2
      · simp [natBitsFuel, hn]
      · simp only [natBitsFuel, if_neg hn]
        have hd1 : n / 2 < 2 ^ f1 := by
          rw [pow_succ] at h1
          omega
        have hd2 : n / 2 < 2 ^ f2 := by
          rw [pow_succ] at h2
          omega
        have hg1 : 1 ≤ f1 := by
          by_contra hc
          have : f1 = 0 := by omega
          subst this
          simp at hd1
          omega
        have hg2 : 1 ≤ f2 := by
          by_contra hc
          have : f2 = 0 := by omega
          subst this
          simp at hd2
          omega
        rw [ih f2 (n / 2) hd1 hd2 hg1 hg2]

theorem natBits_eq (n : Nat) :
    natBits n = if n < 2 then [n == 1] else natBits (n / 2) ++ [n % 2 == 1] := by
  by_cases h : n < 2
  · simp [natBits, natBitsFuel, h]
  · rw [if_neg h]
    show natBitsFuel (n + 1) n = _
    simp only [natBitsFuel, if_neg h]
    congr 1
    have hb1 : n / 2 < 2 ^ n :=
      lt_of_le_of_lt (Nat.div_le_self n 2) (Nat.lt_two_pow n)
    have hb2 : n / 2 < 2 ^ (n / 2 + 1) := by
      have hp : n / 2 < 2 ^ (n / 2) := Nat.lt_two_pow (n / 2)
      have hm : 2 ^ (n / 2) ≤ 2 ^ (n / 2 + 1) :=
        Nat.pow_le_pow_right (by omega) (by omega)
      omega
    exact natBitsFuel_congr n (n / 2 + 1) (n / 2) hb1 hb2 (by omega) (by omega)

theorem natBits_of_lt_two (n : Nat) (h : n < 2) : natBits n = [n == 1] := by
  rw [natBits_eq]
  simp [h]

theorem natBits_of_ge_two (n : Nat) (h : ¬ n < 2) :
    natBits n = natBits (n / 2) ++ [n % 2 == 1] := by
  rw [natBits_eq]
  simp [h]

theorem natBits_length_le (k : Nat) (hk : 1 ≤ k) :
    ∀ n : Nat, n < 2 ^ k → (natBits n).length ≤ k := by
  induction k with
  | zero => omega
  | succ k ih =>
    intro n hn
    by_cases h : n < 2
    · rw [natBits_of_lt_two n h]
      simp
    · rw [natBits_of_ge_two n h]
      have hk1 : 1 ≤ k := by
        by_contra hc
        have : k = 0 := by omega
        subst this
        simp [pow_succ] at hn
        omega
      have hdiv : n / 2 < 2 ^ k := by
        rw [pow_succ] at hn
        omega
      have := ih hk1 (n / 2) hdiv
      simp [List.length_append]
      omega

theorem format08b_length (n : Nat) (h : n < 256) : (format08b n).length = 8 := by
  have hle : (natBits n).length ≤ 8 := natBits_length_le 8 (by omega) n (by norm_num; omega)
  simp [format08b, List.length_append, List.length_replicate]
  omega

theorem format08b_head (n : Nat) (h : n < 128) : (format08b n)[0]? = some false := by
  have hle : (natBits n).length ≤ 7 := natBits_length_le 7 (by omega) n (by norm_num; omega)
  rw [format08b, List.getElem?_append_left (by simp [List.length_replicate]; omega),
    List.getElem?_replicate]
  rw [if_pos (by omega)]

theorem binVal_append_singleton (l : List Bool) (b : Bool) :
    binVal (l ++ [b]) = 2 * binVal l + b.toNat := by
  simp [binVal, List.foldl_append]

theorem binVal_natBits (n : Nat) : binVal (natBits n) = n := by
  induction n using Nat.strong_induction_on with
  | _ n ih =>
    by_cases h : n < 2
    · rw [natBits_of_lt_two n h]
      interval_cases n <;> rfl
    · rw [natBits_of_ge_two n h, binVal_append_singleton, ih (n / 2) (by omega)]
      rcases Nat.mod_two_eq_zero_or_one n with h2 | h2 <;> rw [h2] <;> simp <;> omega

theorem binVal_replicate_false_append (k : Nat) (l : List Bool) :
    binVal (List.replicate k false ++ l) = binVal l := by
  rw [binVal, List.foldl_append]
  have : List.foldl (fun a bit => 2 * a + bit.toNat) 0 (List.replicate k false) = 0 := by
    induction k with
    | zero => rfl
    | succ k ihk => simpa [List.replicate_succ]
  rw [this, binVal]

theorem binVal_format08b (n : Nat) : binVal (format08b n) = n := by
  rw [format08b, binVal_replicate_false_append, binVal_natBits]

theorem str_to_bin_nil : str_to_bin [] = [] := rfl

theorem str_to_bin_cons (c : Nat) (s : List Nat) :
    str_to_bin (c :: s) = format08b c ++ str_to_bin s := by
  simp [str_to_bin]

theorem str_to_bin_length (s : List Nat) (h : ∀ c ∈ s, c < 256) :
    (str_to_bin s).length = 8 * s.length := by
  induction s with
  | nil => rfl
  | cons c s ih =>
    rw [str_to_bin_cons, List.length_append,
      format08b_length c (h c (List.mem_cons_self c s)),
      ih (fun d hd => h d (List.mem_cons_of_mem c hd))]
    simp
    ring

theorem binToStrFuel_congr (f1 : Nat) :
    ∀ f2 b, b.length ≤ f1 → b.length ≤ f2 →
      binToStrFuel f1 b = binToStrFuel f2 b := by
  induction f1 with
  | zero =>
    intro f2 b h1 _
    have hb : b.length < 8 := by omega
    match f2 with
    | 0 => rfl
    | f2 + 1 => simp [binToStrFuel, hb]
  | succ f1 ih =>
    intro f2 b h1 h2
    by_cases hb : b.length < 8
    · match f2 with
      | 0 => simp [binToStrFuel, hb]
      | f2 + 1 => simp [binToStrFuel, hb]
    · match f2 with
      | 0 => omega
      | f2 + 1 =>
        simp only [binToStrFuel, if_neg hb]
        congr 1
        exact ih f2 (b.drop 8) (by simp [List.length_drop]; omega)
          (by simp [List.length_drop]; omega)

theorem bin_to_str_eq (b : List Bool) :
    bin_to_str b =
      if b.length < 8 then [] else binVal (b.take 8) :: bin_to_str (b.drop 8) := by
  by_cases h : b.length < 8
  · rw [if_pos h]
    show binToStrFuel b.length b = []
    rw [binToStrFuel_congr b.length (b.length + 1) b (Nat.le_refl _) (by omega)]
    simp [binToStrFuel, h]
  · rw [if_neg h]
    show binToStrFuel b.length b = _
    have hlen : b.length = (b.length - 1) + 1 := by omega
    rw [hlen]
    simp only [binToStrFuel, if_neg (show ¬ b.length < 8 from h)]
    congr 1
    exact binToStrFuel_congr (b.length - 1) (b.drop 8).length (b.drop 8)
      (by simp [List.length_drop]; omega) (by omega)

theorem bin_to_str_of_short (b : List Bool) (h : b.length < 8) : bin_to_str b = [] := by
  rw [bin_to_str_eq]
  simp [h]

theorem bin_to_str_append8 (b r : List Bool) (h : b.length = 8) :
    bin_to_str (b ++ r) = binVal b :: bin_to_str r := by
  rw [bin_to_str_eq]
  rw [if_neg (by simp [List.length_append]; omega)]
  congr 1
  · congr 1
    rw [← h, List.take_left]
  · congr 1
    rw [← h, List.drop_left]

theorem bin_to_str_str_to_bin (s : List Nat) (h : ∀ c ∈ s, c < 256) :
    bin_to_str (str_to_bin s) = s := by
  induction s with
  | nil => exact bin_to_str_of_short _ (by simp [str_to_bin_nil])
  | cons c s ih =>
    rw [str_to_bin_cons,
      bin_to_str_append8 _ _ (format08b_length c (h c (List.mem_cons_self c s))),
      binVal_format08b, ih (fun d hd => h d (List.mem_cons_of_mem c hd))]

/-! ### Prefix and first-occurrence machinery for the EOF marker -/

theorem eofMarker_length : eofMarker.length = 16 := by decide

theorem eofMarker_ne_nil : eofMarker ≠ [] := by decide

theorem eofMarker_getElem_true (k : Nat) (hk : k < 15) : eofMarker[k]? = some true := by
  rw [eofMarker, List.getElem?_append_left (by simp [List.length_replicate]; omega),
    List.getElem?_replicate, if_pos hk]

theorem eofMarker_getElem_last : eofMarker[15]? = some false := by decide

theorem takePre (n : Nat) {α : Type} (l : List α) : l.take n <+: l :=
  ⟨l.drop n, List.take_append_drop n l⟩

theorem isPre_getElem? {α : Type} {l₁ l₂ : List α} (h : l₁ <+: l₂) (k : Nat)
    (hk : k < l₁.length) : l₂[k]? = l₁[k]? := by
  obtain ⟨t, rfl⟩ := h
  rw [List.getElem?_append_left hk]

theorem not_prefix_of_length_lt {α : Type} {l₁ l₂ : List α}
    (h : l₂.length < l₁.length) : ¬ l₁ <+: l₂ :=
  fun hp => absurd hp.length_le (by omega)

theorem findSub_cons (x : Bool) (t : List Bool) :
    findSub (x :: t) =
      if eofMarker <+: (x :: t) then some 0 else (findSub t).map (· + 1) := by
  rw [findSub]
  by_cases h : eofMarker <+: (x :: t)
  · rw [if_pos h, if_pos (by rw [ List.isPrefixOf_iff_prefix]; exact h)]
  · rw [if_neg h, if_neg (by rw [ List.isPrefixOf_iff_prefix]; exact h)]

theorem findSub_eq_none_iff (l : List Bool) :
    findSub l = none ↔ ∀ i, ¬ eofMarker <+: l.drop i := by
  induction l with
  | nil =>
    constructor
    · intro _ i h
      rw [List.drop_nil] at h
      exact eofMarker_ne_nil (List.prefix_nil.mp h)
    · intro _
      rfl
  | cons x t ih =>
    rw [findSub_cons]
    by_cases h : eofMarker <+: (x :: t)
    · rw [if_pos h]
      constructor
      · intro hc
        exact Option.noConfusion hc
      · intro hall
        exact absurd h (by simpa using hall 0)
    · rw [if_neg h]
      constructor
      · intro hnone i
        match i with
        | 0 => simpa using h
        | i + 1 =>
          rw [List.drop_succ_cons]
          exact (ih.mp (by simpa using hnone)) i
      · intro hall
        have : findSub t = none := ih.mpr (fun i => by
          have := hall (i + 1)
          rwa [List.drop_succ_cons] at this)
        simp [this]

theorem findSub_eq_some_iff (l : List Bool) (n : Nat) :
    findSub l = some n ↔
      (eofMarker <+: l.drop n ∧ ∀ i < n, ¬ eofMarker <+: l.drop i) := by
  induction l generalizing n with
  | nil =>
    constructor
    · intro hs
      exact Option.noConfusion hs
    · rintro ⟨hp, _⟩
      rw [List.drop_nil] at hp
      exact absurd (List.prefix_nil.mp hp) eofMarker_ne_nil
  | cons x t ih =>
    rw [findSub_cons]
    by_cases h : eofMarker <+: (x :: t)
    · rw [if_pos h]
      constructor
      · intro hs
        have hn : n = 0 := by simpa using hs.symm
        subst hn
        exact ⟨by simpa using h, by omega⟩
      · rintro ⟨hp, hmin⟩
        match n with
        | 0 => rfl
        | n + 1 => exact absurd h (by simpa using hmin 0 (by omega))
    · rw [if_neg h]
      match n with
      | 0 =>
        constructor
        · intro hs
          rcases Option.map_eq_some'.mp hs with ⟨m, _, hm⟩
          omega
        · rintro ⟨hp, _⟩
          rw [List.drop_zero] at hp
          exact absurd hp h
      | n + 1 =>
        constructor
        · intro hs
          rcases Option.map_eq_some'.mp hs with ⟨m, hm, hmn⟩
          rw [show m = n by omega] at hm
          rcases (ih n).mp hm with ⟨hp, hmin⟩
          refine ⟨by rwa [List.drop_succ_cons], ?_⟩
          intro i hi
          match i with
          | 0 => simpa using h
          | i + 1 =>
            rw [List.drop_succ_cons]
            exact hmin i (by omega)
        · rintro ⟨hp, hmin⟩
          have ht : findSub t = some n := (ih n).mpr ⟨by rwa [List.drop_succ_cons] at hp,
            fun i hi => by
              have := hmin (i + 1) (by omega)
              rwa [List.drop_succ_cons] at this⟩
          simp [ht]

theorem findSub_some_bound (l : List Bool) (e : Nat) (h : findSub l = some e) :
    e + 16 ≤ l.length := by
  have hp := ((findSub_eq_some_iff l e).mp h).1
  have := hp.length_le
  rw [eofMarker_length, List.length_drop] at this
  omega

/-- A bit list in which every bit at an index divisible by 8 is `false`:
the shape of `str_to_bin` output for a payload of ASCII characters, whose
most significant bit is always zero. -/
def byteAligned (l : List Bool) : Prop :=
  ∀ j < l.length, j % 8 = 0 → l[j]? = some false

theorem str_to_bin_byteAligned (s : List Nat) (h : ∀ c ∈ s, c < 128) :
    byteAligned (str_to_bin s) := by
  induction s with
  | nil =>
    intro j hj
    simp [str_to_bin_nil] at hj
  | cons c s ih =>
    intro j hj hj8
    have hc : c < 128 := h c (List.mem_cons_self c s)
    have hflen : (format08b c).length = 8 := format08b_length c (by omega)
    rw [str_to_bin_cons]
    by_cases hlt : j < 8
    · have hj0 : j = 0 := by omega
      subst hj0
      rw [List.getElem?_append_left (by omega)]
      exact format08b_head c hc
    · rw [List.getElem?_append_right (by omega), hflen]
      rw [str_to_bin_cons, List.length_append, hflen] at hj
      refine ih (fun d hd => h d (List.mem_cons_of_mem c hd)) (j - 8) (by omega) (by omega)

theorem not_prefix_early (pb r : List Bool) (hba : byteAligned pb) (i : Nat)
    (hi : i + 8 ≤ pb.length) : ¬ eofMarker <+: (pb ++ r).drop i := by
  intro h
  have hj1 : i ≤ 8 * ((i + 7) / 8) := by omega
  have hj2 : 8 * ((i + 7) / 8) ≤ i + 7 := by omega
  have hj8 : 8 * ((i + 7) / 8) % 8 = 0 := by omega
  set j := 8 * ((i + 7) / 8) with hj
  have hjlen : j < pb.length := by omega
  have hfalse : (pb ++ r)[j]? = some false := by
    rw [List.getElem?_append_left hjlen]
    exact hba j hjlen hj8
  have htrue : ((pb ++ r).drop i)[j - i]? = some true := by
    rw [isPre_getElem? h (j - i) (by rw [eofMarker_length]; omega)]
    exact eofMarker_getElem_true (j - i) (by omega)
  rw [List.getElem?_drop] at htrue
  rw [show i + (j - i) = j by omega] at htrue
  rw [hfalse] at htrue
  exact Bool.noConfusion (Option.some.inj htrue)

theorem not_prefix_late (pb r : List Bool) (i : Nat)
    (h1 : pb.length ≤ i + 7) (h2 : i < pb.length) :
    ¬ eofMarker <+: (pb ++ (eofMarker ++ r)).drop i := by
  intro h
  have hidx : ((pb ++ (eofMarker ++ r)).drop i)[15]? = some false := by
    rw [isPre_getElem? h 15 (by rw [eofMarker_length]; omega)]
    exact eofMarker_getElem_last
  rw [List.getElem?_drop] at hidx
  rw [List.getElem?_append_right (by omega)] at hidx
  rw [List.getElem?_append_left (by rw [eofMarker_length]; omega)] at hidx
  rw [eofMarker_getElem_true (i + 15 - pb.length) (by omega)] at hidx
  exact Bool.noConfusion (Option.some.inj hidx)

theorem findSub_payload (s : List Nat) (r : List Bool) (h : ∀ c ∈ s, c < 128) :
    findSub (str_to_bin s ++ (eofMarker ++ r)) = some (str_to_bin s).length := by
  rw [findSub_eq_some_iff]
  constructor
  · rw [List.drop_left]
    exact ⟨r, rfl⟩
  · intro i hi
    by_cases hc : i + 8 ≤ (str_to_bin s).length
    · exact not_prefix_early _ _ (str_to_bin_byteAligned s h) i hc
    · exact not_prefix_late _ _ i (by omega) hi

theorem findSub_aligned_short (s : List Nat) (r : List Bool)
    (h : ∀ c ∈ s, c < 128) (hr : r.length ≤ 8) :
    findSub (str_to_bin s ++ r) = none := by
  rw [findSub_eq_none_iff]
  intro i hp
  by_cases hc : i + 8 ≤ (str_to_bin s).length
  · exact not_prefix_early _ _ (str_to_bin_byteAligned s h) i hc hp
  · have hlen := hp.length_le
    rw [eofMarker_length, List.length_drop, List.length_append] at hlen
    omega

theorem prefix_drop_take (l : List Bool) (n i : Nat)
    (h : eofMarker <+: (l.take n).drop i) : eofMarker <+: l.drop i := by
  rw [List.drop_take] at h
  exact h.trans (takePre _ _)

theorem prefix_take_drop (l : List Bool) (n i : Nat)
    (h : eofMarker <+: l.drop i) (hn : i + 16 ≤ n) :
    eofMarker <+: (l.take n).drop i := by
  rw [List.drop_take]
  obtain ⟨t, ht⟩ := h
  rw [← ht, List.take_append_eq_append_take,
    List.take_of_length_le (by rw [eofMarker_length]; omega)]
  exact ⟨t.take (n - i - eofMarker.length), rfl⟩

theorem findSub_take_none (l : List Bool) (n : Nat) (h : findSub l = none) :
    findSub (l.take n) = none := by
  rw [findSub_eq_none_iff] at h ⊢
  exact fun i hp => h i (prefix_drop_take l n i hp)

theorem findSub_take_some (l : List Bool) (n e : Nat)
    (h : findSub l = some e) (he : e + 16 ≤ n) : findSub (l.take n) = some e := by
  rw [findSub_eq_some_iff] at h ⊢
  exact ⟨prefix_take_drop l n e h.1 he,
    fun i hi hp => h.2 i hi (prefix_drop_take l n i hp)⟩

/-! ### Facts about the embedding loop -/

theorem lsb_write (x : Nat) (b : Bool) : lsb ((x &&& 0xFE) ||| b.toNat) = b := by
  have h1 : ((x &&& 0xFE) ||| b.toNat).testBit 0 = b := by
    rw [Nat.testBit_or, Nat.testBit_and]
    have h254 : (0xFE : Nat).testBit 0 = false := by decide
    rw [h254, Bool.and_false, Bool.false_or]
    cases b <;> decide
  rw [Nat.testBit_zero] at h1
  rw [lsb, Nat.and_one_is_mod]
  cases b with
  | false =>
    simp only [decide_eq_false_iff_not] at h1
    have h0 : ((x &&& 0xFE) ||| Bool.toNat false) % 2 = 0 := by omega
    simp [h0]
  | true =>
    simp only [decide_eq_true_eq] at h1
    simp [h1]

set_option maxRecDepth 8192 in
theorem write_div2 : ∀ x < 256, ∀ b : Bool, ((x &&& 0xFE) ||| b.toNat) / 2 = x / 2 := by
  decide

theorem writeBits_length (buf : List Nat) (bits : List Bool) :
    (writeBits buf bits).length = buf.length := by
  induction buf generalizing bits with
  | nil => cases bits <;> rfl
  | cons x xs ih =>
    cases bits with
    | nil => rfl
    | cons b bs => simp [writeBits, ih]

theorem map_lsb_writeBits (buf : List Nat) (bits : List Bool)
    (h : bits.length ≤ buf.length) :
    (writeBits buf bits).map lsb = bits ++ (buf.drop bits.length).map lsb := by
  induction bits generalizing buf with
  | nil => simp [writeBits]
  | cons b bs ih =>
    cases buf with
    | nil => simp at h
    | cons x xs =>
      simp only [writeBits, List.map_cons, List.length_cons, List.drop_succ_cons]
      rw [lsb_write, ih xs (by simpa using h)]
      simp

theorem writeBits_getElem_ge (buf : List Nat) (bits : List Bool) (i : Nat)
    (h : bits.length ≤ i) : (writeBits buf bits)[i]? = buf[i]? := by
  induction bits generalizing buf i with
  | nil => cases buf <;> simp [writeBits]
  | cons b bs ih =>
    cases buf with
    | nil => simp [writeBits]
    | cons x xs =>
      match i with
      | 0 => simp at h
      | i + 1 =>
        simp only [writeBits, List.getElem?_cons_succ]
        exact ih xs i (by simpa using h)

theorem writeBits_getElem_lt (buf : List Nat) (bits : List Bool) (i : Nat)
    (hi : i < bits.length) (hib : i < buf.length) :
    ∃ x b, buf[i]? = some x ∧ bits[i]? = some b ∧
      (writeBits buf bits)[i]? = some ((x &&& 0xFE) ||| b.toNat) := by
  induction bits generalizing buf i with
  | nil => simp at hi
  | cons b bs ih =>
    cases buf with
    | nil => simp at hib
    | cons x xs =>
      match i with
      | 0 => exact ⟨x, b, by simp, by simp, by simp [writeBits]⟩
      | i + 1 =>
        obtain ⟨x', b', h1, h2, h3⟩ :=
          ih xs i (by simpa using hi) (by simpa using hib)
        exact ⟨x', b', by simpa using h1, by simpa using h2, by simpa [writeBits] using h3⟩

/-! ### The embed/extract round trip -/

theorem embed_eq_some (B p : List Nat) (h : (str_to_bin p).length + 16 ≤ B.length) :
    embed_watermark B p = some (writeBits B (str_to_bin p ++ eofMarker)) := by
  rw [embed_watermark]
  have hlen : (str_to_bin p ++ eofMarker).length = (str_to_bin p).length + 16 := by
    rw [List.length_append, eofMarker_length]
  rw [if_neg (by omega)]

theorem embed_eq_none (B p : List Nat) (h : B.length < (str_to_bin p).length + 16) :
    embed_watermark B p = none := by
  rw [embed_watermark]
  have hlen : (str_to_bin p ++ eofMarker).length = (str_to_bin p).length + 16 := by
    rw [List.length_append, eofMarker_length]
  rw [if_pos (by omega)]

theorem extract_of_findSub_none (buf : List Nat) (h : findSub (extractBits buf) = none) :
    extract_watermark buf = none := by
  rw [extract_watermark, h]

theorem extract_of_findSub_some (buf : List Nat) (e : Nat)
    (h : findSub (extractBits buf) = some e) :
    extract_watermark buf = some (bin_to_str ((extractBits buf).take e)) := by
  rw [extract_watermark, h]

theorem roundtrip_core (B p : List Nat) (hascii : ∀ c ∈ p, c < 128)
    (hcap : 8 * p.length + 16 ≤ B.length) (hscan : 8 * p.length + 16 ≤ 98304) :
    embed_watermark B p = some (writeBits B (str_to_bin p ++ eofMarker)) ∧
    extract_watermark (writeBits B (str_to_bin p ++ eofMarker)) = some p := by
  have h256 : ∀ c ∈ p, c < 256 := fun c hc => by have := hascii c hc; omega
  have hlen : (str_to_bin p).length = 8 * p.length := str_to_bin_length p h256
  have hdata : (str_to_bin p ++ eofMarker).length = 8 * p.length + 16 := by
    rw [List.length_append, eofMarker_length, hlen]
  refine ⟨embed_eq_some B p (by omega), ?_⟩
  set W := writeBits B (str_to_bin p ++ eofMarker) with hW
  have hWlen : W.length = B.length := writeBits_length _ _
  have hmap : W.map lsb =
      str_to_bin p ++ (eofMarker ++ (B.drop (8 * p.length + 16)).map lsb) := by
    rw [hW, map_lsb_writeBits B _ (by omega), hdata, List.append_assoc]
  have hlimit : pixel_check_limit W = min B.length 98304 := by
    rw [pixel_check_limit, hWlen]
  have hge : 8 * p.length + 16 ≤ min B.length 98304 := by omega
  have hbits : extractBits W = (W.map lsb).take (min B.length 98304) := by
    rw [extractBits, hlimit, List.map_take]
  have hfull : findSub (W.map lsb) = some (8 * p.length) := by
    rw [hmap, findSub_payload p _ hascii, hlen]
  have hfind : findSub (extractBits W) = some (8 * p.length) := by
    rw [hbits]
    exact findSub_take_some _ _ _ hfull hge
  rw [extract_of_findSub_some W _ hfind]
  have htake : (extractBits W).take (8 * p.length) = str_to_bin p := by
    rw [hbits, List.take_take, min_eq_left (by omega), hmap,
      List.take_append_eq_append_take, hlen, Nat.sub_self, List.take_zero,
      List.append_nil, List.take_of_length_le (by omega)]
  rw [htake, bin_to_str_str_to_bin p h256]

/-! ### Claim C7 -/

/-- C7: for a payload of ASCII characters (ordinal < 128) the bit string
`str_to_bin payload` contains no occurrence of the 16-bit EOF marker, and
in the embedded data `str_to_bin payload ++ eofMarker` the first
occurrence of the marker is exactly at bit offset `8 * len payload`. -/
theorem c7_no_sentinel_in_ascii_payload (p : List Nat) (hascii : ∀ c ∈ p, c < 128) :
    findSub (str_to_bin p) = none ∧
    findSub (str_to_bin p ++ eofMarker) = some (8 * p.length) := by
  constructor
  · have h := findSub_aligned_short p [] hascii (by simp)
    rwa [List.append_nil] at h
  · have h := findSub_payload p [] hascii
    rw [List.append_nil] at h
    rwa [str_to_bin_length p (fun c hc => by have := hascii c hc; omega)] at h

/-- C7 witness: the property evaluated at the one-character ASCII payload
`"a"`. -/
theorem c7_witness :
    findSub (str_to_bin [97]) = none ∧
    findSub (str_to_bin [97] ++ eofMarker) = some (8 * [97].length) :=
  c7_no_sentinel_in_ascii_payload [97] (by decide)

/-! ### Claim C1 -/

/-- C1 (amended): the round trip `extract (embed B p) = p` holds for every
ASCII payload `p` and buffer `B` of capacity at least `8 * len p + 16`,
provided additionally that the embedded data fits inside the extractor's
scan cap of `4096 * 8 * 3 = 98304` samples. -/
theorem c1_roundtrip_within_scan_cap (B p : List Nat) (hascii : ∀ c ∈ p, c < 128)
    (hcap : 8 * p.length + 16 ≤ B.length) (hscan : 8 * p.length + 16 ≤ 98304) :
    ∃ W, embed_watermark B p = some W ∧ extract_watermark W = some p :=
  ⟨writeBits B (str_to_bin p ++ eofMarker),
    (roundtrip_core B p hascii hcap hscan).1,
    (roundtrip_core B p hascii hcap hscan).2⟩

/-- C1 witness: the round trip evaluated on the payload `"a"` and a
40-sample buffer. -/
theorem c1_witness :
    ∃ W, embed_watermark (List.replicate 40 7) [97] = some W ∧
      extract_watermark W = some [97] :=
  c1_roundtrip_within_scan_cap (List.replicate 40 7) [97] (by decide) (by decide)
    (by decide)

/-- A 12287-character ASCII payload: one character more than fits the
extractor's 98304-sample scan cap together with the EOF marker. -/
def wideP : List Nat := List.replicate 12287 97

/-- A buffer of exactly the capacity `8 * 12287 + 16 = 98312` required by
`wideP`. -/
def wideB : List Nat := List.replicate 98312 0

/-- C1 counterexample: `wideP` is ASCII and `wideB` satisfies the claim's
capacity bound `len B ≥ 8 * len p + 16`, yet embedding succeeds and
extraction then returns `none` rather than the payload, because the EOF
marker lies beyond the extractor's scan cap. -/
theorem c1_counterexample :
    wideP.all (fun c => decide (c < 128)) = true ∧
    8 * wideP.length + 16 ≤ wideB.length ∧
    (embed_watermark wideB wideP).map extract_watermark = some none := by
  have hascii : ∀ c ∈ wideP, c < 128 := by
    intro c hc
    rw [wideP, List.mem_replicate] at hc
    omega
  refine ⟨?_, ?_, ?_⟩
  · rw [List.all_eq_true]
    intro c hc
    simpa using hascii c hc
  · rw [wideP, wideB, List.length_replicate, List.length_replicate]
  · have hlen : (str_to_bin wideP).length = 98296 := by
      rw [str_to_bin_length wideP (fun c hc => by have := hascii c hc; omega),
        wideP, List.length_replicate]
    have hBlen : wideB.length = 98312 := by rw [wideB, List.length_replicate]
    have hemb : embed_watermark wideB wideP =
        some (writeBits wideB (str_to_bin wideP ++ eofMarker)) :=
      embed_eq_some _ _ (by omega)
    rw [hemb, Option.map_some']
    set W := writeBits wideB (str_to_bin wideP ++ eofMarker) with hWdef
    have hWlen : W.length = 98312 := by rw [hWdef, writeBits_length, hBlen]
    have hmap : W.map lsb = str_to_bin wideP ++ eofMarker := by
      rw [hWdef, map_lsb_writeBits wideB _
        (by rw [List.length_append, eofMarker_length]; omega)]
      rw [List.length_append, eofMarker_length, hlen, show (98296 + 16 : Nat) = 98312 from rfl,
        ← hBlen, List.drop_length]
      simp
    have hbits : extractBits W = str_to_bin wideP ++ List.replicate 8 true := by
      rw [extractBits, pixel_check_limit, hWlen,
        show min 98312 (4096 * 8 * 3) = 98304 by norm_num,
        List.map_take, hmap, List.take_append_eq_append_take,
        List.take_of_length_le (by omega), hlen,
        show (98304 - 98296 : Nat) = 8 from rfl, eofMarker,
        List.take_append_eq_append_take, List.take_replicate]
      simp
    have hfind : findSub (extractBits W) = none := by
      rw [hbits]
      exact findSub_aligned_short wideP _ hascii (by simp)
    rw [extract_of_findSub_none _ hfind]

/-! ### Claim C4 -/

/-- C4 (amended): a payload whose total bit length (payload bits plus the
16-bit EOF marker) equals `len B - 1` embeds successfully; a total bit
length equal to `len B` also succeeds, since the source fails only when
the data is strictly longer than the buffer; a total bit length of
`len B + 1` fails with the capacity error. -/
theorem c4_capacity_boundary (B p : List Nat) (hchars : ∀ c ∈ p, c < 256) :
    (8 * p.length + 16 + 1 = B.length → ∃ W, embed_watermark B p = some W) ∧
    (8 * p.length + 16 = B.length → ∃ W, embed_watermark B p = some W) ∧
    (8 * p.length + 16 = B.length + 1 → embed_watermark B p = none) := by
  have hlen : (str_to_bin p).length = 8 * p.length := str_to_bin_length p hchars
  exact ⟨fun h => ⟨_, embed_eq_some B p (by omega)⟩,
    fun h => ⟨_, embed_eq_some B p (by omega)⟩,
    fun h => embed_eq_none B p (by omega)⟩

/-- C4 witness: the boundary behavior evaluated on the payload `"a"` at
buffer lengths 25, 24 and 23. -/
theorem c4_witness :
    (∃ W, embed_watermark (List.replicate 25 0) [97] = some W) ∧
    (∃ W, embed_watermark (List.replicate 24 0) [97] = some W) ∧
    embed_watermark (List.replicate 23 0) [97] = none :=
  ⟨(c4_capacity_boundary (List.replicate 25 0) [97] (by decide)).1 (by decide),
   (c4_capacity_boundary (List.replicate 24 0) [97] (by decide)).2.1 (by decide),
   (c4_capacity_boundary (List.replicate 23 0) [97] (by decide)).2.2 (by decide)⟩

/-- C4 counterexample: the one-character payload `"a"` in a 24-sample
buffer has total bit length `8 + 16 = 24` equal to the buffer length, and
the claim demands a `CapacityError` there, but embedding succeeds. -/
theorem c4_counterexample :
    8 * ([97] : List Nat).length + 16 = (List.replicate 24 (0 : Nat)).length ∧
    embed_watermark (List.replicate 24 0) [97] ≠ none := by
  decide

/-! ### Claim C5 -/

/-- C5 (amended): for payloads whose characters all have ordinal below
256 (each contributing exactly 8 bits), embedding fails if and only if
`8 * len p + 16` strictly exceeds the number of samples, and otherwise
returns the watermarked buffer. -/
theorem c5_capacity_iff (B p : List Nat) (hchars : ∀ c ∈ p, c < 256) :
    (embed_watermark B p = none ↔ 8 * p.length + 16 > B.length) ∧
    (8 * p.length + 16 ≤ B.length →
      embed_watermark B p = some (writeBits B (str_to_bin p ++ eofMarker))) := by
  have hlen : (str_to_bin p).length = 8 * p.length := str_to_bin_length p hchars
  constructor
  · constructor
    · intro h
      by_contra hc
      rw [embed_eq_some B p (by omega)] at h
      exact Option.noConfusion h
    · intro h
      exact embed_eq_none B p (by omega)
  · intro h
    exact embed_eq_some B p (by omega)

/-- C5 witness: the characterization evaluated on the payload `"a"` and a
40-sample buffer. -/
theorem c5_witness :
    embed_watermark (List.replicate 40 (0 : Nat)) [97] =
      some (writeBits (List.replicate 40 0) (str_to_bin [97] ++ eofMarker)) :=
  (c5_capacity_iff (List.replicate 40 0) [97] (by decide)).2 (by decide)

/-- C5 counterexample: the claim quantifies over every payload text, but a
character above 255 contributes more than 8 bits: for the one-character
payload with ordinal 256, `8 * len p + 16 = 24` fits a 24-sample buffer
according to the claim, yet the source embeds `9 + 16 = 25` bits and
raises the capacity error. -/
theorem c5_counterexample :
    8 * ([256] : List Nat).length + 16 ≤ (List.replicate 24 (0 : Nat)).length ∧
    embed_watermark (List.replicate 24 0) [256] = none := by
  decide

/-! ### Claim C6 -/

/-- C6: on a successful embed the returned buffer agrees with the input
buffer on every sample at index at least `8 * len p + 16`, and at each
smaller index differs at most in the least significant bit (the sample
halves coincide); the model is a pure function — the input buffer is
never mutated — and when the capacity check fails no output buffer is
produced at all. -/
theorem c6_frame_conditions (B p : List Nat) (hB : ∀ x ∈ B, x < 256)
    (hchars : ∀ c ∈ p, c < 256) :
    (∀ W, embed_watermark B p = some W →
      (∀ i, 8 * p.length + 16 ≤ i → W[i]? = B[i]?) ∧
      (∀ i < 8 * p.length + 16,
        ∃ x y, B[i]? = some x ∧ W[i]? = some y ∧ y / 2 = x / 2)) ∧
    (B.length < 8 * p.length + 16 → embed_watermark B p = none) := by
  have hlen : (str_to_bin p).length = 8 * p.length := str_to_bin_length p hchars
  have hdata : (str_to_bin p ++ eofMarker).length = 8 * p.length + 16 := by
    rw [List.length_append, eofMarker_length, hlen]
  constructor
  · intro W hW
    have hcap : 8 * p.length + 16 ≤ B.length := by
      by_contra hc
      rw [embed_eq_none B p (by omega)] at hW
      exact Option.noConfusion hW
    rw [embed_eq_some B p (by omega)] at hW
    obtain rfl : writeBits B (str_to_bin p ++ eofMarker) = W := Option.some.inj hW
    constructor
    · intro i hi
      exact writeBits_getElem_ge B _ i (by rw [hdata]; omega)
    · intro i hi
      obtain ⟨x, b, h1, h2, h3⟩ :=
        writeBits_getElem_lt B (str_to_bin p ++ eofMarker) i (by rw [hdata]; omega)
          (by omega)
      obtain ⟨hmem, rfl⟩ := List.getElem?_eq_some.mp h1
      exact ⟨B[i], (B[i] &&& 0xFE) ||| b.toNat, h1, h3,
        write_div2 B[i] (hB B[i] (List.getElem_mem hmem)) b⟩
  · intro h
    exact embed_eq_none B p (by omega)

/-- C6 witness: the frame conditions evaluated on the payload `"a"` and a
30-sample buffer at indices 26 (beyond the data) and 3 (inside it). -/
theorem c6_witness :
    (writeBits (List.replicate 30 5) (str_to_bin [97] ++ eofMarker))[26]? =
      (List.replicate 30 (5 : Nat))[26]? ∧
    (∃ x y, (List.replicate 30 (5 : Nat))[3]? = some x ∧
      (writeBits (List.replicate 30 5) (str_to_bin [97] ++ eofMarker))[3]? = some y ∧
      y / 2 = x / 2) :=
  ⟨((c6_frame_conditions (List.replicate 30 5) [97] (by decide) (by decide)).1
      (writeBits (List.replicate 30 5) (str_to_bin [97] ++ eofMarker))
      (by decide)).1 26 (by decide),
   ((c6_frame_conditions (List.replicate 30 5) [97] (by decide) (by decide)).1
      (writeBits (List.replicate 30 5) (str_to_bin [97] ++ eofMarker))
      (by decide)).2 3 (by decide)⟩

/-! ### Claim C8 -/

theorem bin_to_str_groups_aux (n : Nat) : ∀ b : List Bool, b.length ≤ n →
    bin_to_str b =
      (List.range (b.length / 8)).map (fun i => binVal ((b.drop (8 * i)).take 8)) := by
  induction n with
  | zero =>
    intro b hb
    have h8 : b.length < 8 := by omega
    rw [bin_to_str_of_short b h8, show b.length / 8 = 0 by omega]
    rfl
  | succ n ih =>
    intro b hb
    by_cases h : b.length < 8
    · rw [bin_to_str_of_short b h, show b.length / 8 = 0 by omega]
      rfl
    · rw [bin_to_str_eq, if_neg h, ih (b.drop 8) (by simp [List.length_drop]; omega)]
      have hq : b.length / 8 = (b.drop 8).length / 8 + 1 := by
        rw [List.length_drop]
        omega
      rw [hq, List.range_succ_eq_map, List.map_cons, List.map_map]
      congr 1
      apply List.map_congr_left
      intro i hi
      simp only [Function.comp_apply, Nat.succ_eq_add_one, List.drop_drop]
      rw [show 8 + 8 * i = 8 * (i + 1) by ring]

/-- C8: `bin_to_str` silently drops a trailing group shorter than 8 bits
— its value on `b` equals its value on the first `8 * (len b / 8)` bits —
and maps each full 8-bit group, left to right, to the code point given by
that group's unsigned MSB-first integer value. -/
theorem c8_bin_to_str_truncation (b : List Bool) :
    bin_to_str b = bin_to_str (b.take (8 * (b.length / 8))) ∧
    bin_to_str b =
      (List.range (b.length / 8)).map (fun i => binVal ((b.drop (8 * i)).take 8)) := by
  have hg : ∀ c : List Bool, bin_to_str c =
      (List.range (c.length / 8)).map (fun i => binVal ((c.drop (8 * i)).take 8)) :=
    fun c => bin_to_str_groups_aux c.length c (Nat.le_refl _)
  refine ⟨?_, hg b⟩
  have hN : 8 * (b.length / 8) ≤ b.length := by omega
  have hlen : (b.take (8 * (b.length / 8))).length = 8 * (b.length / 8) := by
    rw [List.length_take]
    omega
  rw [hg b, hg (b.take (8 * (b.length / 8))), hlen,
    Nat.mul_div_cancel_left _ (show (0:Nat) < 8 by omega)]
  refine List.map_congr_left (fun i hi => ?_)
  rw [List.mem_range] at hi
  rw [List.drop_take, List.take_take, min_eq_left (by omega)]

/-! ### Claim C9 -/

/-- C9: the extractor reads LSBs only from the first
`min(len buf, 4096 * 8 * 3)` samples — its result is unchanged when the
buffer is truncated to `4096 * 8 * 3 = 98304` samples — and whenever the
scanned prefix contains no occurrence of the EOF marker it returns the
`none` ("no watermark") result rather than an error. -/
theorem c9_bounded_scan (buf : List Nat) :
    extract_watermark buf = extract_watermark (buf.take (4096 * 8 * 3)) ∧
    (findSub (extractBits buf) = none → extract_watermark buf = none) := by
  constructor
  · have hbits : extractBits (buf.take (4096 * 8 * 3)) = extractBits buf := by
      rw [extractBits, extractBits, pixel_check_limit, pixel_check_limit,
        List.length_take, List.take_take]
      congr 2
      omega
    rw [extract_watermark, extract_watermark, hbits]
  · intro h
    exact extract_of_findSub_none buf h

/-- C9 witness: the bounded-scan properties evaluated on an untouched
20-sample buffer of value 6, whose LSB prefix contains no EOF marker. -/
theorem c9_witness :
    extract_watermark (List.replicate 20 6) =
      extract_watermark ((List.replicate 20 6).take (4096 * 8 * 3)) ∧
    extract_watermark (List.replicate 20 6) = none :=
  ⟨(c9_bounded_scan (List.replicate 20 6)).1,
   (c9_bounded_scan (List.replicate 20 6)).2 (by decide)⟩

/-! ### Claim C10 -/

theorem gui_extract_of_findSub_none (buf : List Nat)
    (h : findSub (buf.map lsb) = none) : gui_extract_watermark buf = none := by
  rw [gui_extract_watermark, h]

theorem gui_extract_of_findSub_some (buf : List Nat) (e : Nat)
    (h : findSub (buf.map lsb) = some e) :
    gui_extract_watermark buf = some (bin_to_str ((buf.map lsb).take e)) := by
  rw [gui_extract_watermark, h]

/-- C10: whenever the first occurrence of the EOF marker in the buffer's
full LSB sequence lies entirely within the first `4096 * 8 * 3 = 98304`
bits — in particular whenever there is no occurrence at all — the capped
backend extractor and the uncapped GUI extractor return the same result;
they can disagree only when the first occurrence extends past that
prefix. -/
theorem c10_capped_equals_uncapped (buf : List Nat)
    (h : ∀ e, findSub (buf.map lsb) = some e → e + 16 ≤ 4096 * 8 * 3) :
    extract_watermark buf = gui_extract_watermark buf := by
  have hbits : extractBits buf = (buf.map lsb).take (pixel_check_limit buf) := by
    rw [extractBits, List.map_take]
  cases hfs : findSub (buf.map lsb) with
  | none =>
    have hcap : findSub (extractBits buf) = none := by
      rw [hbits]
      exact findSub_take_none _ _ hfs
    rw [extract_of_findSub_none _ hcap, gui_extract_of_findSub_none _ hfs]
  | some e =>
    have he1 : e + 16 ≤ 4096 * 8 * 3 := h e hfs
    have he2 : e + 16 ≤ (buf.map lsb).length := findSub_some_bound _ _ hfs
    have he3 : e + 16 ≤ pixel_check_limit buf := by
      rw [List.length_map] at he2
      rw [pixel_check_limit]
      omega
    have hcap : findSub (extractBits buf) = some e := by
      rw [hbits]
      exact findSub_take_some _ _ _ hfs he3
    rw [extract_of_findSub_some _ _ hcap, gui_extract_of_findSub_some _ _ hfs]
    rw [hbits, List.take_take, min_eq_left (by omega)]

/-- C10 witness: the two extractors agree on a 40-sample buffer carrying
the payload `"a"`, whose EOF marker occurrence starts at bit 8. -/
theorem c10_witness :
    extract_watermark (writeBits (List.replicate 40 0) (str_to_bin [97] ++ eofMarker)) =
      gui_extract_watermark
        (writeBits (List.replicate 40 0) (str_to_bin [97] ++ eofMarker)) :=
  c10_capped_equals_uncapped _ (by
    intro e he
    rw [show findSub ((writeBits (List.replicate 40 0)
        (str_to_bin [97] ++ eofMarker)).map lsb) = some 8 by decide] at he
    injection he with h8
    omega)

/-! ### Service-layer helper lemmas -/

theorem isEmpty_false_of_ne {l : List Nat} (h : l ≠ []) : l.isEmpty = false := by
  cases l with
  | nil => exact absurd rfl h
  | cons a t => rfl

theorem hexDigit_lt (m : Nat) (hm : m < 16) : hexDigit m < 128 := by
  rw [hexDigit]
  split_ifs <;> omega

theorem uEscape_ascii (c : Nat) : ∀ d ∈ uEscape c, d < 128 := by
  intro d hd
  rw [uEscape] at hd
  simp only [List.mem_cons, List.not_mem_nil, or_false] at hd
  rcases hd with rfl | rfl | rfl | rfl | rfl | rfl <;>
    first
      | omega
      | exact hexDigit_lt _ (by omega)

theorem jsonEscapeChar_ascii (c : Nat) : ∀ d ∈ jsonEscapeChar c, d < 128 := by
  intro d hd
  rw [jsonEscapeChar] at hd
  split_ifs at hd <;>
    first
      | exact uEscape_ascii _ _ hd
      | (rcases List.mem_append.mp hd with hd' | hd' <;> exact uEscape_ascii _ _ hd')
      | (simp only [List.mem_cons, List.not_mem_nil, or_false] at hd
         rcases hd with rfl | rfl <;> omega)

theorem ascii_append {l1 l2 : List Nat} (h1 : ∀ c ∈ l1, c < 128)
    (h2 : ∀ c ∈ l2, c < 128) : ∀ c ∈ l1 ++ l2, c < 128 := by
  intro c hc
  rcases List.mem_append.mp hc with h | h
  · exact h1 c h
  · exact h2 c h

theorem jsonFlatten_ascii (s : List Nat) :
    ∀ c ∈ (List.map jsonEscapeChar s).flatten, c < 128 := by
  intro c hc
  rcases List.mem_flatten.mp hc with ⟨l, hl, hcl⟩
  rcases List.mem_map.mp hl with ⟨a, _, rfl⟩
  exact jsonEscapeChar_ascii a c hcl

theorem jsonStr_ascii (s : List Nat) : ∀ c ∈ jsonStr s, c < 128 := by
  rw [jsonStr]
  exact ascii_append (ascii_append (by decide) (jsonFlatten_ascii s)) (by decide)

theorem jsonOptStr_ascii (o : Option (List Nat)) : ∀ c ∈ jsonOptStr o, c < 128 := by
  intro c hc
  cases o with
  | none =>
    rw [jsonOptStr, show strCodes "null" = [110, 117, 108, 108] from by decide] at hc
    simp only [List.mem_cons, List.not_mem_nil, or_false] at hc
    rcases hc with rfl | rfl | rfl | rfl <;> omega
  | some s => exact jsonStr_ascii s c hc

theorem jsonDumpsRecord_ascii (r : WatermarkRecord) :
    ∀ c ∈ jsonDumpsRecord r, c < 128 := by
  rw [jsonDumpsRecord]
  repeat' apply ascii_append
  all_goals
    first
      | exact jsonStr_ascii _
      | exact jsonOptStr_ascii _
      | exact jsonFlatten_ascii _
      | decide

theorem validate_embed_inputs_ok (owner passkey confirm_passkey : List Nat)
    (h1 : owner ≠ []) (h2 : passkey ≠ []) (h3 : passkey = confirm_passkey) :
    validate_embed_inputs owner passkey confirm_passkey true = [] := by
  rw [validate_embed_inputs, isEmpty_false_of_ne h1, isEmpty_false_of_ne h2]
  subst h3
  simp

/-! ### Claim C2 -/

theorem service_embed_success (sha : List Nat → List Nat)
    (B owner buyer passkey confirm_passkey datetime_str : List Nat)
    (hval : validate_embed_inputs owner passkey confirm_passkey true = [])
    (W : List Nat)
    (hembed : embed_watermark B (jsonDumpsRecord
      (create_watermark_data sha owner buyer datetime_str passkey)) = some W) :
    service_embed_watermark sha (some B) owner buyer passkey confirm_passkey
      datetime_str = (some W, []) := by
  rw [service_embed_watermark]
  rw [show (some B : Option (List Nat)).isSome = true from rfl, hval]
  rw [if_neg (show ¬ ((!(List.isEmpty ([] : List (List Nat)))) = true) from by decide)]
  rw [show (some B : Option (List Nat)).getD [] = B from rfl]
  simp only [hembed]

/-- C2 (amended): the "already watermarked" refusal lives in the frontend
page, whose `_handle_embed_button` guard suppresses the embed action
whenever session state holds an existing watermark that has not been
resell-verified; `WatermarkService.embed_watermark` itself performs no
existing-watermark check and, called directly with valid inputs on an
already-watermarked buffer of sufficient capacity, succeeds and
overwrites the existing record with the new serialized record. -/
theorem c2_guard_only_in_frontend (sha : List Nat → List Nat)
    (rec : WatermarkRecord)
    (B owner buyer passkey confirm_passkey datetime_str : List Nat)
    (howner : owner ≠ []) (hpass : passkey ≠ []) (hconf : passkey = confirm_passkey)
    (_hwm : (extract_watermark B).isSome = true)
    (hcap : 8 * (jsonDumpsRecord
        (create_watermark_data sha owner buyer datetime_str passkey)).length + 16 ≤
      B.length) :
    show_embed_button (some rec) false = false ∧
    service_embed_watermark sha (some B) owner buyer passkey confirm_passkey
        datetime_str =
      (some (writeBits B (str_to_bin (jsonDumpsRecord
          (create_watermark_data sha owner buyer datetime_str passkey)) ++ eofMarker)),
        []) := by
  refine ⟨rfl, ?_⟩
  have hjson := jsonDumpsRecord_ascii (create_watermark_data sha owner buyer datetime_str passkey)
  have h256 : ∀ c ∈ jsonDumpsRecord (create_watermark_data sha owner buyer datetime_str passkey),
      c < 256 := fun c hc => by have := hjson c hc; omega
  have hembed : embed_watermark B
      (jsonDumpsRecord (create_watermark_data sha owner buyer datetime_str passkey)) =
      some (writeBits B (str_to_bin (jsonDumpsRecord
        (create_watermark_data sha owner buyer datetime_str passkey)) ++ eofMarker)) :=
    embed_eq_some _ _ (by rw [str_to_bin_length _ h256]; omega)
  exact service_embed_success sha B owner buyer passkey confirm_passkey datetime_str
    (validate_embed_inputs_ok _ _ _ howner hpass hconf) _ hembed

/-- A 600-sample buffer that already carries the embedded one-character
payload `"x"`: a concrete already-watermarked image. -/
def demoWatermarked : List Nat :=
  writeBits (List.replicate 600 0) (str_to_bin [120] ++ eofMarker)

set_option maxRecDepth 100000 in
/-- C2 witness: the amended claim evaluated on the concrete watermarked
buffer `demoWatermarked` with valid inputs (`owner = "A"`, matching
nonempty passkeys) and a stand-in digest function. -/
theorem c2_witness :
    show_embed_button (some (⟨[], [], [], none⟩ : WatermarkRecord)) false = false ∧
    service_embed_watermark (fun _ => strCodes "ffff") (some demoWatermarked)
        (strCodes "A") [] (strCodes "p") (strCodes "p") (strCodes "d") =
      (some (writeBits demoWatermarked (str_to_bin (jsonDumpsRecord
          (create_watermark_data (fun _ => strCodes "ffff") (strCodes "A") []
            (strCodes "d") (strCodes "p"))) ++ eofMarker)), []) :=
  c2_guard_only_in_frontend (fun _ => strCodes "ffff") ⟨[], [], [], none⟩
    demoWatermarked (strCodes "A") [] (strCodes "p") (strCodes "p") (strCodes "d")
    (by decide) (by decide) rfl (by decide) (by decide)

set_option maxRecDepth 100000 in
/-- C2 counterexample: `demoWatermarked` already contains an embedded
record (extraction succeeds), yet `WatermarkService.embed_watermark`
called on it with valid inputs reports no error and returns a new
watermarked image instead of refusing with an "already watermarked"
signal. -/
theorem c2_counterexample :
    (extract_watermark demoWatermarked).isSome = true ∧
    (service_embed_watermark (fun _ => strCodes "ffff") (some demoWatermarked)
      (strCodes "A") [] (strCodes "p") (strCodes "p") (strCodes "d")).2 = [] ∧
    ((service_embed_watermark (fun _ => strCodes "ffff") (some demoWatermarked)
      (strCodes "A") [] (strCodes "p") (strCodes "p") (strCodes "d")).1).isSome =
      true := by
  refine ⟨by decide, by decide, by decide⟩

/-! ### Claim C3 -/

/-- C3 (amended): for every record whose `passkey_hash` is falsy (absent
or empty) and every NON-empty caller-supplied passkey,
`WatermarkService.verify_resell_passkey` authorizes the resale without
consulting the digest function at all — the result `(true, none)` holds
for every `sha` uniformly; an EMPTY passkey, however, is rejected by
`validate_passkey_verification` before the skip, with the "Please enter a
passkey." error. -/
theorem c3_unprotected_resell_skips_verification (sha : List Nat → List Nat)
    (passkey : List Nat) (rec : WatermarkRecord) (hkey : passkey ≠ [])
    (hno : truthyStr rec.passkey_hash = false) :
    verify_resell_passkey sha passkey rec = (true, none) := by
  have hv : validate_passkey_verification passkey = none := by
    rw [validate_passkey_verification, isEmpty_false_of_ne hkey]
    rfl
  rw [verify_resell_passkey, hv, hno]
  rfl

/-- C3 witness: the amended claim evaluated on the one-character passkey
`"a"` and a record with no `passkey_hash`, with the identity stand-in for
the digest function. -/
theorem c3_witness :
    verify_resell_passkey (fun s => s) [97] ⟨[], [], [], none⟩ = (true, none) :=
  c3_unprotected_resell_skips_verification (fun s => s) [97] ⟨[], [], [], none⟩
    (by decide) (by decide)

/-- C3 counterexample: with the empty passkey and a record that has no
`passkey_hash`, authorization is refused with "Please enter a passkey."
— the claim's "including the empty string" clause fails. -/
theorem c3_counterexample :
    verify_resell_passkey (fun s => s) [] ⟨[], [], [], none⟩ =
      (false, some msgEnterPasskey) := by
  decide

end Watermark
